import Mathlib

/-!
Verification development for the `lzipper` crate (lzip container format).

The Rust sources under `src/` are shallowly embedded below:

* `src/lib.rs`    : shared constants (`MIN_DICT_SIZE`, `MAX_DICT_SIZE`,
  `LZIP_MAGIC`, `LZIP_VERSION`).
* `src/error.rs`  : `LzipError` (payloads of `StreamError`/`IoError` are
  not inspected by any claim and are dropped from the embedding).
* `src/encoder.rs`: `CompressionLevel`, `Encoder::new`/`new_with_level`,
  `write_header`, `compress` (the streaming loop), `write_trailer`,
  `dict_size`, `encode_dict_size`.
* `src/decoder.rs`: `read_header`, `decompress` (the streaming loop),
  `read_trailer`, `decode_dict_size`.

Machine integers are modelled as `Nat`.  Bit operations on bytes are
expressed arithmetically: `b & 0x1F = b % 32`, `b >> 5 = b / 32`,
`x & 0x07 = x % 8`, `1 << e = 2 ^ e`.  Rust `u8`/`u32`/`u64` truncation
is written with explicit `% 2 ^ w` at the points where the source can
actually truncate (little-endian serialization of the trailer fields);
the running byte counters are `u64` in the source and cannot overflow
for any physically representable stream, so they are plain naturals.

The LZMA engine (`liblzma`, an external crate and an explicit black box
in the specification) is modelled abstractly as a stateful stream
transformer `Lzma`, mirroring the collaborator interface the spec
describes: `process(input, output_buffer, action) -> status` together
with total-in/total-out counters, from which the loops recover per-call
`read`/`written` by differencing.  Streams (`Read`/`Write` endpoints)
are byte lists; `BufReader::fill_buf` is modelled as offering the whole
remaining input and `consume(read)` as dropping `read` bytes.
-/

/-- Decidable equality for `Except`, needed to evaluate decoder
results on closed inputs. -/
instance {ε α : Type} [DecidableEq ε] [DecidableEq α] : DecidableEq (Except ε α) :=
  fun a b =>
    match a, b with
    | .error x, .error y =>
      if h : x = y then .isTrue (by rw [h])
      else .isFalse (by intro hc; cases hc; exact h rfl)
    | .error _, .ok _ => .isFalse (by intro hc; cases hc)
    | .ok _, .error _ => .isFalse (by intro hc; cases hc)
    | .ok x, .ok y =>
      if h : x = y then .isTrue (by rw [h])
      else .isFalse (by intro hc; cases hc; exact h rfl)

namespace Lzipper

/-- MIN_DICT_SIZE from lib.rs: 4 KiB. -/
def minDictSize : Nat := 2 ^ 12

/-- MAX_DICT_SIZE from lib.rs: 512 MiB. -/
def maxDictSize : Nat := 2 ^ 29

/-- LZIP_MAGIC from lib.rs. -/
def lzipMagic : List Nat := [0x4C, 0x5A, 0x49, 0x50]

/-- LZIP_VERSION from lib.rs. -/
def lzipVersion : Nat := 0x01

/-- LzipError from error.rs.  The payloads of `StreamError` and
`IoError` are never inspected by the code paths under verification and
are omitted. -/
inductive LzipError where
  | invalidMagic
  | unsupportedVersion
  | invalidDictSize
  | unexpectedEndOfStream
  | invalidCrc
  | invalidDataSize
  | invalidMemberSize
  | streamError
  | ioError
  deriving DecidableEq, Repr

/-! CRC32 (the `crc32fast` collaborator: standard reflected CRC-32,
polynomial 0xEDB88320, initial value 0xFFFFFFFF, final complement). -/

/-- One bit step of reflected CRC-32: shift right, conditionally xor
the reversed polynomial. -/
def crcStep (c : Nat) : Nat :=
  if c % 2 = 1 then (c / 2) ^^^ 0xEDB88320 else c / 2

/-- Process one byte: xor it into the low bits, then eight bit steps. -/
def crc8 (c b : Nat) : Nat :=
  crcStep^[8] (c ^^^ (b % 256))

/-- Running CRC state after feeding a list of bytes
(`Hasher::update`). -/
def crcUpd (c : Nat) (bs : List Nat) : Nat :=
  bs.foldl crc8 c

/-- Initial CRC accumulator (`Hasher::new`). -/
def crcInit : Nat := 0xFFFFFFFF

/-- Final complement (`Hasher::finalize`). -/
def crcFin (c : Nat) : Nat := c ^^^ 0xFFFFFFFF

/-- CRC-32 of a byte list. -/
def crc32 (bs : List Nat) : Nat := crcFin (crcUpd crcInit bs)

/-! Little-endian integer serialization (`to_le_bytes` /
`from_le_bytes`). -/

/-- Serialize the low `k` bytes of `n`, least significant first
(`u32::to_le_bytes` is `leBytes 4`, `u64::to_le_bytes` is
`leBytes 8`). -/
def leBytes : Nat → Nat → List Nat
  | 0, _ => []
  | k + 1, n => n % 256 :: leBytes k (n / 256)

/-- Read a little-endian integer back from bytes (`from_le_bytes`); the
`% 256` records that the source reads `u8`s. -/
def leVal : List Nat → Nat
  | [] => 0
  | b :: bs => b % 256 + 256 * leVal bs

/-! Dictionary-size codec. -/

/-- Decoder::decode_dict_size (decoder.rs lines 159-166).  The source
wraps the result in `Ok` unconditionally (it never fails itself; the
range check lives in `read_header`), so the embedding returns the bare
value: `ds = 1 << (b & 0x1F)`, then if `ds > MIN_DICT_SIZE` subtract
`(ds / 16) * ((b >> 5) & 0x07)`.  The `u32` subtraction cannot
underflow since `(ds / 16) * 7 < ds`. -/
def decodeDictSize (b : Nat) : Nat :=
  let ds := 2 ^ (b % 32)
  if ds > minDictSize then ds - ds / 16 * (b / 32 % 8) else ds

/-- The fractional-subtractor search in `Encoder::encode_dict_size`
(encoder.rs lines 174-179): `for i in (1..=7).rev()`, first `i` with
`base - i * frac >= dict_size` wins; `0` when no `i` matches (the Rust
loop then simply never sets the high bits). -/
def encodeFracSearch (base frac d : Nat) : Nat → Nat
  | 0 => 0
  | i + 1 => if d ≤ base - (i + 1) * frac then i + 1 else encodeFracSearch base frac d i

/-- Fuel-driven floor base-2 logarithm, structurally recursive so that
closed instances evaluate inside the kernel. -/
def ilog2Aux : Nat → Nat → Nat
  | 0, _ => 0
  | f + 1, n => if 2 ≤ n then ilog2Aux f (n / 2) + 1 else 0

/-- `u32::ilog2`: floor base-2 logarithm.  32 units of fuel suffice
for every `u32` value (and indeed for every `n < 2 ^ 32`); on `0` the
Rust method panics while this embedding returns `0` (the source only
applies it to values `>= 4 KiB - 1`). -/
def ilog2 (n : Nat) : Nat := ilog2Aux 32 n

/-- Encoder::encode_dict_size (encoder.rs lines 167-183):
`ds = (dict_size - 1).ilog2() + 1`; if `dict_size > MIN_DICT_SIZE`,
or in the winning fractional subtractor at bits 5-7. -/
def encodeDictSize (d : Nat) : Nat :=
  let ds := ilog2 (d - 1) + 1
  if d > minDictSize then
    Nat.lor ds (32 * encodeFracSearch (2 ^ ds) (2 ^ ds / 16) d 7)
  else ds

/-! Compression levels. -/

/-- CompressionLevel from encoder.rs (the numeric discriminants 0, 3,
6, 9 only feed the opaque LZMA preset and are not needed by any
claim). -/
inductive CompressionLevel where
  | fastest
  | fast
  | default
  | maximum
  deriving DecidableEq, Repr

/-- Encoder::dict_size (encoder.rs lines 155-164): `1 << base` with
`base` = 18 / 22 / 23 / 26 by level. -/
def dictSize : CompressionLevel → Nat
  | .fastest => 2 ^ 18
  | .fast => 2 ^ 22
  | .default => 2 ^ 23
  | .maximum => 2 ^ 26

/-! Abstract LZMA stream engine (the `liblzma` collaborator, out of
scope per the spec and consumed as a black box). -/

/-- Action passed to `Stream::process`. -/
inductive Action where
  | run
  | finish
  deriving DecidableEq, Repr

/-- Status returned by `Stream::process` (only `StreamEnd` is
inspected by the code under verification). -/
inductive Status where
  | ok
  | streamEnd
  deriving DecidableEq, Repr

/-- Result of one `process` call, with the per-call consumed/produced
counts the loops recover by differencing `total_in`/`total_out`. -/
structure ProcOut (σ : Type) where
  st : σ
  read : Nat
  out : List Nat
  status : Status

/-- An abstract LZMA stream engine with internal state `σ`.  The
configuration (raw encoder vs raw decoder, preset, dictionary size) is
absorbed into the engine value.  `read_le` records the interface
guarantee that a call never consumes more bytes than it was offered. -/
structure Lzma (σ : Type) where
  init : σ
  process : σ → List Nat → Action → ProcOut σ
  read_le : ∀ s inp a, (process s inp a).read ≤ inp.length

/-! Encoder (encoder.rs). -/

/-- Encoder state as constructed (encoder.rs lines 40-51); the
`BufReader` input handle is passed separately as a byte list. -/
structure Encoder where
  compressionLevel : CompressionLevel
  crc32 : Nat
  uncompressedSize : Nat
  compressedSize : Nat
  deriving DecidableEq, Repr

/-- Encoder::new_with_level (encoder.rs lines 65-73). -/
def Encoder.newWithLevel (level : CompressionLevel) : Encoder :=
  { compressionLevel := level, crc32 := 0, uncompressedSize := 0, compressedSize := 0 }

/-- Encoder::new (encoder.rs lines 57-59): default compression
level. -/
def Encoder.new : Encoder := Encoder.newWithLevel CompressionLevel.default

/-- Encoder::write_header (encoder.rs lines 87-97). -/
def writeHeader (level : CompressionLevel) : List Nat :=
  lzipMagic ++ [lzipVersion, encodeDictSize (dictSize level)]

/-- Encoder::write_trailer (encoder.rs lines 141-153): crc32 as u32
LE, uncompressed size as u64 LE, member size `6 + compressed_size +
20` as u64 LE. -/
def writeTrailer (crc usize csize : Nat) : List Nat :=
  leBytes 4 crc ++ leBytes 8 usize ++ leBytes 8 (6 + csize + 20)

/-- The compression loop of Encoder::compress (encoder.rs lines
110-135), with `fuel` bounding the number of iterations (the returned
`none` marks fuel exhaustion, which has no source counterpart).  Each
iteration offers the remaining input (`fill_buf`), calls `process`
with `Finish` exactly when the input is exhausted, feeds the consumed
prefix to the hasher, drops it from the input (`consume`), appends the
produced bytes to the output sink, and breaks — finalizing the CRC and
capturing `total_in`/`total_out` — once end of input is reached and a
call produces nothing. -/
def compressLoop {σ : Type} (M : Lzma σ) :
    Nat → σ → List Nat → Nat → Nat → Nat → List Nat →
    Option (Nat × Nat × List Nat × Nat)
  | 0, _, _, _, _, _, _ => none
  | fuel + 1, s, rest, crc, tin, tout, acc =>
    let r := M.process s rest (if rest.isEmpty then Action.finish else Action.run)
    if rest.isEmpty ∧ r.out.length = 0 then
      some (tin + r.read, tout + r.out.length, acc ++ r.out,
        crcFin (crcUpd crc (rest.take r.read)))
    else
      compressLoop M fuel r.st (rest.drop r.read) (crcUpd crc (rest.take r.read))
        (tin + r.read) (tout + r.out.length) (acc ++ r.out)

/-- Encoder::encode (encoder.rs lines 78-84): header, compressed
payload, trailer, written to the output sink in that order.  On
success `compressLoop` returns `(total_in, total_out, payload,
finalized crc)`, matching the fields the source captures at the end of
`compress`. -/
def encode {σ : Type} (M : Lzma σ) (fuel : Nat) (level : CompressionLevel)
    (input : List Nat) : Option (List Nat) :=
  match compressLoop M fuel M.init input crcInit 0 0 [] with
  | none => none
  | some (tin, tout, payload, crcv) =>
    some (writeHeader level ++ payload ++ writeTrailer crcv tin tout)

/-! Decoder (decoder.rs). -/

/-- Decoder::read_header (decoder.rs lines 66-84): read exactly 6
bytes (an `io` error if fewer are available), check the magic, the
version, then decode the dictionary size and range-check it.  Returns
the dictionary size and the unread remainder of the input. -/
def readHeader (input : List Nat) : Except LzipError (Nat × List Nat) :=
  if input.length < 6 then .error .ioError
  else if input.take 4 ≠ lzipMagic then .error .invalidMagic
  else if input.getD 4 0 ≠ lzipVersion then .error .unsupportedVersion
  else
    let ds := decodeDictSize (input.getD 5 0)
    if ds < minDictSize ∨ ds > maxDictSize then .error .invalidDictSize
    else .ok (ds, input.drop 6)

/-- The decompression loop of Decoder::decompress (decoder.rs lines
99-129), with `fuel` bounding iterations (`none` marks fuel
exhaustion).  Each iteration offers the remaining input, calls
`process` with `Finish` exactly when the input is exhausted, drops the
consumed bytes, writes the produced bytes to the sink and folds them
into the hasher; on `StreamEnd` it finalizes the CRC and captures
`total_out`/`total_in`; otherwise, if end of input was reached and the
call produced nothing, it fails with `UnexpectedEndOfStream`.  On
success returns `(total_in, total_out, output, finalized crc,
unconsumed input)`. -/
def decompressLoop {σ : Type} (D : Lzma σ) :
    Nat → σ → List Nat → Nat → Nat → Nat → List Nat →
    Option (Except LzipError (Nat × Nat × List Nat × Nat × List Nat))
  | 0, _, _, _, _, _, _ => none
  | fuel + 1, s, rest, crc, tin, tout, acc =>
    let r := D.process s rest (if rest.isEmpty then Action.finish else Action.run)
    if r.status = Status.streamEnd then
      some (.ok (tin + r.read, tout + r.out.length, acc ++ r.out,
        crcFin (crcUpd crc r.out), rest.drop r.read))
    else if rest.isEmpty ∧ r.out.length = 0 then
      some (.error .unexpectedEndOfStream)
    else
      decompressLoop D fuel r.st (rest.drop r.read) (crcUpd crc r.out)
        (tin + r.read) (tout + r.out.length) (acc ++ r.out)

/-- Decoder::read_trailer (decoder.rs lines 135-156): read exactly 20
bytes (an `io` error if fewer are available); compare the stored crc32
with the session crc32, the stored uncompressed size with the session
uncompressed size, and the stored member size with `6 +
compressed_size + 20`, failing with `InvalidCrc` / `InvalidDataSize` /
`InvalidMemberSize` respectively, in that order.  Returns the unread
remainder of the input. -/
def readTrailer (input : List Nat) (crcv usize csize : Nat) :
    Except LzipError (List Nat) :=
  if input.length < 20 then .error .ioError
  else
    let t := input.take 20
    if leVal (t.take 4) ≠ crcv then .error .invalidCrc
    else if leVal ((t.drop 4).take 8) ≠ usize then .error .invalidDataSize
    else if leVal (t.drop 12) ≠ 6 + csize + 20 then .error .invalidMemberSize
    else .ok (input.drop 20)

/-- Decoder::decode (decoder.rs lines 57-63): `read_header`, then the
decompression loop, then `read_trailer` against the session values the
loop captured (`crc32`, `uncompressed_size = total_out`,
`compressed_size = total_in`).  On success returns the decompressed
output and the bytes of the input the decoder never read. -/
def decode {σ : Type} (D : Lzma σ) (fuel : Nat) (input : List Nat) :
    Option (Except LzipError (List Nat × List Nat)) :=
  match readHeader input with
  | .error e => some (.error e)
  | .ok (_, rest) =>
    match decompressLoop D fuel D.init rest crcInit 0 0 [] with
    | none => none
    | some (.error e) => some (.error e)
    | some (.ok (tin, tout, out, crcv, leftover)) =>
      match readTrailer leftover crcv tout tin with
      | .error e => some (.error e)
      | .ok rest2 => some (.ok (out, rest2))

/-! Concrete engine instances, used to exhibit that the abstract
engine interface is inhabited and to evaluate the pipelines on closed
inputs. -/

/-- A trivial raw encoder: a `Run` call consumes and emits the whole
offered buffer unchanged; a `Finish` call emits nothing and reports
stream end. -/
def storeEnc : Lzma Unit where
  init := ()
  process := fun s buf a =>
    match a with
    | .run => ⟨s, buf.length, buf, .ok⟩
    | .finish => ⟨s, 0, [], .streamEnd⟩
  read_le := by intro s inp a; cases a <;> simp

/-- A raw decoder for the empty stream: it immediately reports stream
end, consuming and producing nothing. -/
def endDec : Lzma Unit where
  init := ()
  process := fun s _ _ => ⟨s, 0, [], .streamEnd⟩
  read_le := by intro s inp a; simp

/-- A stalling raw decoder: it never consumes, produces, or reaches
stream end. -/
def stallDec : Lzma Unit where
  init := ()
  process := fun s _ _ => ⟨s, 0, [], .ok⟩
  read_le := by intro s inp a; simp

/-- A pass-through raw decoder that emits the next `n` bytes verbatim
(state counts the bytes still owed) and reports stream end once all
`n` have been delivered. -/
def passDec (n : Nat) : Lzma Nat where
  init := n
  process := fun s buf _ =>
    if s = 0 then ⟨0, 0, [], .streamEnd⟩
    else ⟨s - min s buf.length, min s buf.length, buf.take (min s buf.length),
      if s ≤ buf.length then .streamEnd else .ok⟩
  read_le := by
    intro s inp a
    dsimp only
    split
    · simp
    · simp [Nat.min_le_right]

/-- The ASCII bytes of the literal example string
"the quick brown fox jumps over the lazy dog" (43 bytes). -/
def foxBytes : List Nat :=
  [116, 104, 101, 32, 113, 117, 105, 99, 107, 32, 98, 114, 111, 119, 110, 32,
   102, 111, 120, 32, 106, 117, 109, 112, 115, 32, 111, 118, 101, 114, 32, 116,
   104, 101, 32, 108, 97, 122, 121, 32, 100, 111, 103]

/-- Locality of a stream decoder: a `process` call that did not
consume its whole offered buffer (it stopped early because it had what
it needed) behaves identically when the buffer is extended on the
right.  Every step of a successful decode run falls in this case, so
this is the engine property under which trailing data past a member is
invisible to the decoder. -/
def ProcExt {σ : Type} (D : Lzma σ) : Prop :=
  ∀ s buf extra, (D.process s buf Action.run).read < buf.length →
    D.process s (buf ++ extra) Action.run = D.process s buf Action.run

/-- Modelled from the spec wording of the dictionary-size decode rule
(spec section 4.1), to be compared with the source embedding
`decodeDictSize`: `ds = 1 << (b & 0x1F)`; if `ds > 4 KiB`, subtract
`(ds / 16) * ((b >> 5) & 0x07)`. -/
def decodeDictSizeSpec (b : Nat) : Nat :=
  if 2 ^ (b % 32) > 2 ^ 12 then
    2 ^ (b % 32) - 2 ^ (b % 32) / 16 * (b / 32 % 8)
  else 2 ^ (b % 32)

/-! Supporting lemmas. -/

theorem leBytes_length (k n : Nat) : (leBytes k n).length = k := by
  induction k generalizing n with
  | zero => rfl
  | succ k ih => simp [leBytes, ih]

theorem leVal_leBytes (k n : Nat) : leVal (leBytes k n) = n % 256 ^ k := by
  induction k generalizing n with
  | zero => simp [leBytes, leVal, Nat.mod_one]
  | succ k ih =>
    have hp : (256 : Nat) ^ (k + 1) = 256 * 256 ^ k := by ring
    rw [hp, Nat.mod_mul]
    simp [leBytes, leVal, ih, Nat.mod_mod_of_dvd]

theorem crcUpd_append (c : Nat) (xs ys : List Nat) :
    crcUpd c (xs ++ ys) = crcUpd (crcUpd c xs) ys :=
  List.foldl_append crc8 c xs ys

theorem crcStep_lt {c : Nat} (h : c < 2 ^ 32) : crcStep c < 2 ^ 32 := by
  unfold crcStep
  split
  · exact Nat.xor_lt_two_pow (by omega) (by norm_num)
  · omega

theorem crcIter_lt (n : Nat) {c : Nat} (h : c < 2 ^ 32) : crcStep^[n] c < 2 ^ 32 := by
  induction n generalizing c with
  | zero => simpa
  | succ n ih => rw [Function.iterate_succ_apply]; exact ih (crcStep_lt h)

theorem crc8_lt {c : Nat} (b : Nat) (h : c < 2 ^ 32) : crc8 c b < 2 ^ 32 := by
  unfold crc8
  exact crcIter_lt 8 (Nat.xor_lt_two_pow h (by have := Nat.mod_lt b (y := 256) (by norm_num); omega))

theorem crcUpd_lt (bs : List Nat) {c : Nat} (h : c < 2 ^ 32) : crcUpd c bs < 2 ^ 32 := by
  induction bs generalizing c with
  | nil => simpa [crcUpd]
  | cons x xs ih => exact ih (crc8_lt x h)

theorem crcFin_lt {c : Nat} (h : c < 2 ^ 32) : crcFin c < 2 ^ 32 :=
  Nat.xor_lt_two_pow h (by norm_num)

theorem crc32_lt (bs : List Nat) : crc32 bs < 2 ^ 32 :=
  crcFin_lt (crcUpd_lt bs (by norm_num [crcInit]))

/-- Invariants of the encoder's streaming loop: when it terminates it
has consumed the whole input, its CRC is the finalized running CRC
over that input, and its `total_out` counts exactly the payload bytes
appended to the sink. -/
theorem compressLoop_sound {σ : Type} (M : Lzma σ) :
    ∀ fuel s rest crc tin tout acc tin' tout' out' crcv,
    compressLoop M fuel s rest crc tin tout acc = some (tin', tout', out', crcv) →
    tin' = tin + rest.length ∧ crcv = crcFin (crcUpd crc rest) ∧
    ∃ p, out' = acc ++ p ∧ tout' = tout + p.length := by
  intro fuel
  induction fuel with
  | zero =>
    intro s rest crc tin tout acc tin' tout' out' crcv h
    simp [compressLoop] at h
  | succ fuel ih =>
    intro s rest crc tin tout acc tin' tout' out' crcv h
    cases rest with
    | nil =>
      have hread : (M.process s [] Action.finish).read = 0 := by
        have := M.read_le s [] Action.finish
        simpa using this
      simp only [compressLoop, List.isEmpty_nil, if_true, List.take_nil, List.drop_nil,
        true_and] at h
      split at h
      · rename_i hlen
        have hout : (M.process s [] Action.finish).out = [] := List.length_eq_zero.mp hlen
        simp only [Option.some.injEq, Prod.mk.injEq] at h
        obtain ⟨h1, h2, h3, h4⟩ := h
        exact ⟨by simp only [List.length_nil]; omega, h4.symm, [],
          by rw [← h3, hout], by simp only [List.length_nil]; omega⟩
      · obtain ⟨H1, H2, p, H3, H4⟩ := ih _ _ _ _ _ _ _ _ _ _ h
        refine ⟨by simp at H1 ⊢; omega, ?_, (M.process s [] Action.finish).out ++ p, ?_, ?_⟩
        · rw [H2]
          simp [crcUpd]
        · rw [H3, List.append_assoc]
        · simp only [List.length_append] at H4 ⊢
          omega
    | cons x t =>
      simp only [compressLoop, List.isEmpty_cons, Bool.false_eq_true, false_and,
        if_false] at h
      obtain ⟨H1, H2, p, H3, H4⟩ := ih _ _ _ _ _ _ _ _ _ _ h
      have hr := M.read_le s (x :: t) Action.run
      refine ⟨?_, ?_, (M.process s (x :: t) Action.run).out ++ p, ?_, ?_⟩
      · rw [H1, List.length_drop]
        omega
      · rw [H2, ← crcUpd_append, List.take_append_drop]
      · rw [H3, List.append_assoc]
      · simp only [List.length_append] at H4 ⊢
        omega

/-- Invariants of the decoder's streaming loop: on success the output
sink received exactly the produced bytes, `total_out` counts them, the
session CRC is the finalized running CRC over them, and the loop
consumed exactly the first `total_in` bytes of its input, leaving the
rest unread. -/
theorem decompressLoop_sound {σ : Type} (D : Lzma σ) :
    ∀ fuel s rest crc tin tout acc tin' tout' out' crcv leftover,
    decompressLoop D fuel s rest crc tin tout acc =
      some (.ok (tin', tout', out', crcv, leftover)) →
    ∃ p k, out' = acc ++ p ∧ tout' = tout + p.length ∧
      crcv = crcFin (crcUpd crc p) ∧
      k ≤ rest.length ∧ tin' = tin + k ∧ leftover = rest.drop k := by
  intro fuel
  induction fuel with
  | zero =>
    intro s rest crc tin tout acc tin' tout' out' crcv leftover h
    simp [decompressLoop] at h
  | succ fuel ih =>
    intro s rest crc tin tout acc tin' tout' out' crcv leftover h
    cases rest with
    | nil =>
      have hread : (D.process s [] Action.finish).read = 0 := by
        have := D.read_le s [] Action.finish
        simpa using this
      simp only [decompressLoop, List.isEmpty_nil, if_true, List.take_nil, List.drop_nil,
        true_and] at h
      split at h
      · simp only [Option.some.injEq, Except.ok.injEq, Prod.mk.injEq] at h
        obtain ⟨h1, h2, h3, h4, h5⟩ := h
        exact ⟨(D.process s [] Action.finish).out, 0,
          h3.symm, h2.symm, h4.symm, by simp, by omega, by simp [← h5]⟩
      · split at h
        · simp at h
        · obtain ⟨p, k, H1, H2, H3, H4, H5, H6⟩ := ih _ _ _ _ _ _ _ _ _ _ _ h
          refine ⟨(D.process s [] Action.finish).out ++ p, 0, ?_, ?_, ?_, by simp, by simp at H4; omega, ?_⟩
          · rw [H1, List.append_assoc]
          · simp only [List.length_append] at H2 ⊢
            omega
          · rw [H3, ← crcUpd_append]
          · simp at H6 ⊢
            exact H6
    | cons x t =>
      simp only [decompressLoop, List.isEmpty_cons, Bool.false_eq_true, false_and,
        if_false] at h
      have hr := D.read_le s (x :: t) Action.run
      split at h
      · simp only [Option.some.injEq, Except.ok.injEq, Prod.mk.injEq] at h
        obtain ⟨h1, h2, h3, h4, h5⟩ := h
        exact ⟨(D.process s (x :: t) Action.run).out,
          (D.process s (x :: t) Action.run).read,
          h3.symm, h2.symm, h4.symm, hr, h1.symm, h5.symm⟩
      · obtain ⟨p, k, H1, H2, H3, H4, H5, H6⟩ := ih _ _ _ _ _ _ _ _ _ _ _ h
        refine ⟨(D.process s (x :: t) Action.run).out ++ p,
          (D.process s (x :: t) Action.run).read + k,
          ?_, ?_, ?_, ?_, by omega, ?_⟩
        · rw [H1, List.append_assoc]
        · simp only [List.length_append] at H2 ⊢
          omega
        · rw [H3, ← crcUpd_append]
        · rw [List.length_drop] at H4
          omega
        · rw [H6, List.drop_drop]

/-- Extending the input of a successful decoder-loop run on the right
does not disturb the run, provided the engine is local (`ProcExt`) and
the run left some input unconsumed (in a successful `decode` the
20-byte trailer always is): the loop returns the same session values
and the extension stays unread. -/
theorem decompressLoop_extend {σ : Type} (D : Lzma σ) (hD : ProcExt D) :
    ∀ fuel s rest extra crc tin tout acc tin' tout' out' crcv leftover,
    decompressLoop D fuel s rest crc tin tout acc =
      some (.ok (tin', tout', out', crcv, leftover)) →
    leftover ≠ [] →
    decompressLoop D fuel s (rest ++ extra) crc tin tout acc =
      some (.ok (tin', tout', out', crcv, leftover ++ extra)) := by
  intro fuel
  induction fuel with
  | zero =>
    intro s rest extra crc tin tout acc tin' tout' out' crcv leftover h hne
    simp [decompressLoop] at h
  | succ fuel ih =>
    intro s rest extra crc tin tout acc tin' tout' out' crcv leftover h hne
    cases rest with
    | nil =>
      obtain ⟨p, k, _, _, _, _, _, hleft⟩ := decompressLoop_sound D _ _ _ _ _ _ _ _ _ _ _ _ h
      simp at hleft
      exact absurd hleft hne
    | cons x t =>
      have hr := D.read_le s (x :: t) Action.run
      simp only [decompressLoop, List.isEmpty_cons, Bool.false_eq_true, false_and,
        if_false] at h
      by_cases hred : (D.process s (x :: t) Action.run).read < (x :: t).length
      · have hext : D.process s ((x :: t) ++ extra) Action.run = D.process s (x :: t) Action.run :=
          hD s (x :: t) extra hred
        have hdropext : ((x :: t) ++ extra).drop (D.process s (x :: t) Action.run).read =
            (x :: t).drop (D.process s (x :: t) Action.run).read ++ extra :=
          List.drop_append_of_le_length (Nat.le_of_lt hred)
        rw [List.cons_append] at hext hdropext
        simp only [decompressLoop, List.cons_append, List.isEmpty_cons, Bool.false_eq_true,
          false_and, if_false, hext, hdropext]
        split at h
        · simp only [Option.some.injEq, Except.ok.injEq, Prod.mk.injEq] at h
          obtain ⟨h1, h2, h3, h4, h5⟩ := h
          rename_i hst
          rw [if_pos hst]
          rw [h1, h2, h3, h4, h5]
        · rename_i hst
          rw [if_neg hst]
          exact ih _ _ _ _ _ _ _ _ _ _ _ _ h hne
      · have hlen : (x :: t).length ≤ (D.process s (x :: t) Action.run).read := by omega
        have hdropnil : (x :: t).drop (D.process s (x :: t) Action.run).read = [] := by
          rw [List.drop_eq_nil_iff]
          exact hlen
        split at h
        · simp only [Option.some.injEq, Except.ok.injEq, Prod.mk.injEq] at h
          obtain ⟨_, _, _, _, h5⟩ := h
          exact absurd (h5 ▸ hdropnil) hne
        · obtain ⟨p, k, _, _, _, _, _, hleft⟩ :=
            decompressLoop_sound D _ _ _ _ _ _ _ _ _ _ _ _ h
          rw [hdropnil] at hleft
          simp at hleft
          exact absurd hleft hne

/-- The four preset dictionary sizes survive the dictionary-size codec
round trip and lie inside the legal range. -/
theorem dictSize_level_roundtrip (level : CompressionLevel) :
    decodeDictSize (encodeDictSize (dictSize level)) = dictSize level ∧
    minDictSize ≤ dictSize level ∧ dictSize level ≤ maxDictSize := by
  cases level <;> exact ⟨by decide, by decide, by decide⟩

/-- Reading back a header written for a byte whose decoded dictionary
size is in range yields that size and leaves the remaining input
untouched. -/
theorem readHeader_bytes (b : Nat) (rest : List Nat)
    (h1 : minDictSize ≤ decodeDictSize b) (h2 : decodeDictSize b ≤ maxDictSize) :
    readHeader (0x4C :: 0x5A :: 0x49 :: 0x50 :: 0x01 :: b :: rest) =
      .ok (decodeDictSize b, rest) := by
  unfold readHeader
  rw [if_neg (by simp), if_neg (by simp [lzipMagic]), if_neg (by simp [lzipVersion])]
  simp only [List.getD_cons_succ, List.getD_cons_zero, List.drop_succ_cons, List.drop_zero]
  rw [if_neg (by omega)]

/-- The header the encoder writes re-parses to the dictionary size of
the chosen level. -/
theorem readHeader_writeHeader (level : CompressionLevel) (rest : List Nat) :
    readHeader (writeHeader level ++ rest) = .ok (dictSize level, rest) := by
  obtain ⟨hrt, hlo, hhi⟩ := dictSize_level_roundtrip level
  have hw : writeHeader level ++ rest =
      0x4C :: 0x5A :: 0x49 :: 0x50 :: 0x01 :: encodeDictSize (dictSize level) :: rest := by
    simp [writeHeader, lzipMagic, lzipVersion]
  rw [hw, readHeader_bytes _ _ (by rw [hrt]; exact hlo) (by rw [hrt]; exact hhi), hrt]

/-- Reading back the trailer the encoder wrote succeeds when the
session values match and the stored fields fit their machine widths;
later input is left untouched. -/
theorem readTrailer_writeTrailer (crcv usize csize : Nat) (extra : List Nat)
    (hc : crcv < 2 ^ 32) (hu : usize < 2 ^ 64) (hm : 6 + csize + 20 < 2 ^ 64) :
    readTrailer (writeTrailer crcv usize csize ++ extra) crcv usize csize = .ok extra := by
  have hlen4 : (leBytes 4 crcv).length = 4 := leBytes_length 4 crcv
  have hlen8u : (leBytes 8 usize).length = 8 := leBytes_length 8 usize
  have hlen8m : (leBytes 8 (6 + csize + 20)).length = 8 := leBytes_length 8 (6 + csize + 20)
  have hlen20 : (writeTrailer crcv usize csize).length = 20 := by
    simp [writeTrailer, hlen4, hlen8u, hlen8m]
  have htake : (writeTrailer crcv usize csize ++ extra).take 20 = writeTrailer crcv usize csize :=
    List.take_left' hlen20
  have ht4 : (writeTrailer crcv usize csize).take 4 = leBytes 4 crcv :=
    List.take_left' hlen4
  have hd4 : (writeTrailer crcv usize csize).drop 4 =
      leBytes 8 usize ++ leBytes 8 (6 + csize + 20) :=
    List.drop_left' hlen4
  have ht8 : (leBytes 8 usize ++ leBytes 8 (6 + csize + 20)).take 8 = leBytes 8 usize :=
    List.take_left' hlen8u
  have hd12 : (writeTrailer crcv usize csize).drop 12 = leBytes 8 (6 + csize + 20) := by
    rw [show (12 : Nat) = 4 + 8 from rfl, ← List.drop_drop, hd4]
    exact List.drop_left' hlen8u
  have h2pow : (256 : Nat) ^ 8 = 2 ^ 64 := by norm_num
  have e1 : leVal (leBytes 4 crcv) = crcv := by
    rw [leVal_leBytes, show (256 : Nat) ^ 4 = 2 ^ 32 from by norm_num]
    exact Nat.mod_eq_of_lt hc
  have e2 : leVal (leBytes 8 usize) = usize := by
    rw [leVal_leBytes, h2pow]
    exact Nat.mod_eq_of_lt hu
  have e3 : leVal (leBytes 8 (6 + csize + 20)) = 6 + csize + 20 := by
    rw [leVal_leBytes, h2pow]
    exact Nat.mod_eq_of_lt hm
  simp only [readTrailer]
  rw [if_neg (by simp [hlen20]), htake, ht4, e1, hd4, ht8, e2, hd12, e3,
    if_neg (by omega), if_neg (by omega), if_neg (by omega), List.drop_left' hlen20]

/-- Composition of the three decoder stages on given intermediate
results. -/
theorem decode_eq {σ : Type} (D : Lzma σ) (fuel : Nat) (input : List Nat)
    (ds : Nat) (rest : List Nat) (tin tout : Nat) (out : List Nat) (crcv : Nat)
    (leftover rest2 : List Nat)
    (h1 : readHeader input = .ok (ds, rest))
    (h2 : decompressLoop D fuel D.init rest crcInit 0 0 [] =
      some (.ok (tin, tout, out, crcv, leftover)))
    (h3 : readTrailer leftover crcv tout tin = .ok rest2) :
    decode D fuel input = some (.ok (out, rest2)) := by
  simp only [decode, h1, h2, h3]

/-- Round-trip engine correctness, stated at the framing layer: if the
encoder run produced a member, and the decoder engine run on that
member's body reproduces the original bytes while consuming exactly
the payload, then `decode` accepts the member and returns exactly the
original bytes, with no input left unread. -/
theorem decode_encode_aux {σE σD : Type} (E : Lzma σE) (D : Lzma σD)
    (fuelE fuelD : Nat) (level : CompressionLevel) (b member : List Nat)
    (tin tout : Nat) (out : List Nat) (crcv : Nat) (leftover : List Nat)
    (hEnc : encode E fuelE level b = some member)
    (hLoop : decompressLoop D fuelD D.init (member.drop 6) crcInit 0 0 [] =
      some (.ok (tin, tout, out, crcv, leftover)))
    (hOut : out = b) (hTin : tin + 26 = member.length)
    (hb : b.length < 2 ^ 64) (hm : member.length < 2 ^ 64) :
    decode D fuelD member = some (.ok (b, [])) := by
  unfold encode at hEnc
  cases hres : compressLoop E fuelE E.init b crcInit 0 0 [] with
  | none => rw [hres] at hEnc; exact absurd hEnc (by simp)
  | some q =>
    obtain ⟨tinE, toutE, payload, crcE⟩ := q
    rw [hres] at hEnc
    simp only [Option.some.injEq] at hEnc
    obtain ⟨HtinE, HcrcE, p, Hpay, HtoutE⟩ := compressLoop_sound E _ _ _ _ _ _ _ _ _ _ _ hres
    simp only [List.nil_append] at Hpay
    subst Hpay
    have hmem : member = writeHeader level ++ (payload ++ writeTrailer crcE tinE toutE) :=
      hEnc.symm
    have hwhlen : (writeHeader level).length = 6 := by simp [writeHeader, lzipMagic]
    have hwtlen : (writeTrailer crcE tinE toutE).length = 20 := by
      simp [writeTrailer, leBytes_length]
    have hmlen : member.length = payload.length + 26 := by
      rw [hmem]
      simp [List.length_append, hwhlen, hwtlen]
      omega
    have hdrop6 : member.drop 6 = payload ++ writeTrailer crcE tinE toutE := by
      rw [hmem]
      exact List.drop_left' hwhlen
    rw [hdrop6] at hLoop
    obtain ⟨p', k, G1, G2, G3, G4, G5, G6⟩ := decompressLoop_sound D _ _ _ _ _ _ _ _ _ _ _ _ hLoop
    simp only [List.nil_append] at G1
    have hp' : p' = b := by rw [← G1, hOut]
    have htin : tin = payload.length := by omega
    have hk : k = payload.length := by omega
    have hleft : leftover = writeTrailer crcE tinE toutE := by
      rw [G6, hk]
      exact List.drop_left' rfl
    have hcrcv : crcv = crc32 b := by rw [G3, hp']; rfl
    have htout : tout = b.length := by rw [hp'] at G2; omega
    have hcrcE : crcE = crc32 b := HcrcE
    have htinE : tinE = b.length := by omega
    have htoutE : toutE = payload.length := by omega
    have hrt := readTrailer_writeTrailer (crc32 b) b.length payload.length []
      (crc32_lt b) hb (by omega)
    rw [List.append_nil] at hrt
    rw [← hOut]
    refine decode_eq D fuelD member (dictSize level) (payload ++ writeTrailer crcE tinE toutE)
      tin tout out crcv leftover [] ?_ hLoop ?_
    · rw [hmem]
      exact readHeader_writeHeader level _
    · rw [hleft, hcrcv, htout, htin, hcrcE, htinE, htoutE]
      exact hrt

/-- Header parsing only looks at the first 6 bytes: appending input
does not change a successful parse, and the extension lands in the
unread remainder. -/
theorem readHeader_extend (input extra : List Nat) (ds : Nat) (rest : List Nat)
    (h : readHeader input = .ok (ds, rest)) :
    readHeader (input ++ extra) = .ok (ds, rest ++ extra) := by
  simp only [readHeader] at h ⊢
  by_cases h6 : input.length < 6
  · rw [if_pos h6] at h
    simp at h
  · rw [if_neg h6] at h
    have h6' : ¬((input ++ extra).length < 6) := by
      simp only [List.length_append]
      omega
    have ht4 : (input ++ extra).take 4 = input.take 4 :=
      List.take_append_of_le_length (by omega)
    have hg4 : (input ++ extra).getD 4 0 = input.getD 4 0 :=
      List.getD_append _ _ _ _ (by omega)
    have hg5 : (input ++ extra).getD 5 0 = input.getD 5 0 :=
      List.getD_append _ _ _ _ (by omega)
    have hd6 : (input ++ extra).drop 6 = input.drop 6 ++ extra :=
      List.drop_append_of_le_length (by omega)
    rw [if_neg h6', ht4, hg4, hg5, hd6]
    split at h
    · simp at h
    · rename_i hc1
      rw [if_neg hc1]
      split at h
      · simp at h
      · rename_i hc2
        rw [if_neg hc2]
        split at h
        · simp at h
        · rename_i hc3
          rw [if_neg hc3]
          simp only [Except.ok.injEq, Prod.mk.injEq] at h
          rw [h.1, h.2]

/-- Trailer validation only looks at the first 20 bytes of what is
left: appending input does not change a successful validation, and the
extension lands in the unread remainder. -/
theorem readTrailer_extend (input extra : List Nat) (crcv usize csize : Nat)
    (rest : List Nat)
    (h : readTrailer input crcv usize csize = .ok rest) :
    readTrailer (input ++ extra) crcv usize csize = .ok (rest ++ extra) := by
  simp only [readTrailer] at h ⊢
  by_cases h20 : input.length < 20
  · rw [if_pos h20] at h
    simp at h
  · rw [if_neg h20] at h
    have h20' : ¬((input ++ extra).length < 20) := by
      simp only [List.length_append]
      omega
    have ht20 : (input ++ extra).take 20 = input.take 20 :=
      List.take_append_of_le_length (by omega)
    have hd20 : (input ++ extra).drop 20 = input.drop 20 ++ extra :=
      List.drop_append_of_le_length (by omega)
    rw [if_neg h20', ht20, hd20]
    split at h
    · simp at h
    · rename_i hc1
      rw [if_neg hc1]
      split at h
      · simp at h
      · rename_i hc2
        rw [if_neg hc2]
        split at h
        · simp at h
        · rename_i hc3
          rw [if_neg hc3]
          simp only [Except.ok.injEq] at h
          rw [h]

/-! Claim theorems. -/

/-- C1: for every byte sequence `b`, including the empty sequence,
encoding `b` with the Encoder (at any compression level) and then
decoding the produced member with the Decoder succeeds and yields
exactly `b`.  The LZMA engines are abstract (the spec places them out
of scope), so engine correctness enters as hypotheses: the encoder
loop terminated, and the decoder engine run on the member body
reproduces `b` while consuming exactly the payload (`tin + 26 =
member.length`).  Under those, `decode` validates the member and
returns exactly `b` with nothing left over. -/
theorem C1_roundtrip {σE σD : Type} (E : Lzma σE) (D : Lzma σD)
    (fuelE fuelD : Nat) (level : CompressionLevel) (b member : List Nat)
    (tin tout : Nat) (out : List Nat) (crcv : Nat) (leftover : List Nat)
    (hEnc : encode E fuelE level b = some member)
    (hLoop : decompressLoop D fuelD D.init (member.drop 6) crcInit 0 0 [] =
      some (.ok (tin, tout, out, crcv, leftover)))
    (hOut : out = b) (hTin : tin + 26 = member.length)
    (hb : b.length < 2 ^ 64) (hm : member.length < 2 ^ 64) :
    decode D fuelD member = some (.ok (b, [])) :=
  decode_encode_aux E D fuelE fuelD level b member tin tout out crcv leftover
    hEnc hLoop hOut hTin hb hm

/-- Witness for C1 at the empty input: the store engine encodes `[]`
to a concrete 26-byte member, and the empty-stream decoder engine
decodes it back to `[]`. -/
theorem C1_roundtrip_witness :
    decode endDec 1
      [0x4C, 0x5A, 0x49, 0x50, 0x01, 23, 0, 0, 0, 0, 0, 0, 0, 0, 0, 0, 0, 0, 26,
       0, 0, 0, 0, 0, 0, 0] = some (.ok ([], [])) :=
  C1_roundtrip storeEnc endDec 1 1 CompressionLevel.default []
    [0x4C, 0x5A, 0x49, 0x50, 0x01, 23, 0, 0, 0, 0, 0, 0, 0, 0, 0, 0, 0, 0, 26,
     0, 0, 0, 0, 0, 0, 0]
    0 0 [] 0
    [0, 0, 0, 0, 0, 0, 0, 0, 0, 0, 0, 0, 26, 0, 0, 0, 0, 0, 0, 0]
    (by decide) (by decide) (by decide) (by decide) (by decide) (by decide)

/-- C10: an input consisting of one valid lzip member followed by any
trailing bytes decodes successfully to exactly the member's data: the
decoder reads the 6-byte header, the payload, and the 20-byte trailer,
and never checks that the input is exhausted, so the trailing bytes
stay unread.  `ProcExt` is the locality property of the abstract
decoder engine (offering it extra bytes beyond what it wants does not
change its behavior). -/
theorem C10_trailing_data {σ : Type} (D : Lzma σ) (hD : ProcExt D) (fuel : Nat)
    (input extra out leftover : List Nat)
    (h : decode D fuel input = some (.ok (out, leftover))) :
    decode D fuel (input ++ extra) = some (.ok (out, leftover ++ extra)) := by
  unfold decode at h
  cases hh : readHeader input with
  | error e =>
    simp [hh] at h
  | ok q =>
    obtain ⟨ds, rest⟩ := q
    simp only [hh] at h
    cases hl : decompressLoop D fuel D.init rest crcInit 0 0 [] with
    | none =>
      simp [hl] at h
    | some r =>
      cases r with
      | error e =>
        simp [hl] at h
      | ok t =>
        obtain ⟨tin, tout, out0, crcv, l0⟩ := t
        simp only [hl] at h
        cases ht : readTrailer l0 crcv tout tin with
        | error e =>
          simp [ht] at h
        | ok r2 =>
          simp only [ht, Option.some.injEq, Except.ok.injEq, Prod.mk.injEq] at h
          obtain ⟨hA, hB⟩ := h
          subst hA
          subst hB
          have hlen : ¬(l0.length < 20) := by
            intro hcon
            simp only [readTrailer, if_pos hcon] at ht
            exact Except.noConfusion ht
          have hne : l0 ≠ [] := by
            intro he
            rw [he] at hlen
            simp at hlen
          exact decode_eq D fuel (input ++ extra) ds (rest ++ extra) tin tout out0
            crcv (l0 ++ extra) (r2 ++ extra)
            (readHeader_extend input extra ds rest hh)
            (decompressLoop_extend D hD fuel D.init rest extra crcInit 0 0 []
              tin tout out0 crcv l0 hl hne)
            (readTrailer_extend l0 extra crcv tout tin r2 ht)

/-- Witness for C10: three junk bytes appended to a concrete valid
member are returned unread while the member still decodes. -/
theorem C10_trailing_data_witness :
    decode endDec 1
      ([0x4C, 0x5A, 0x49, 0x50, 0x01, 12, 0, 0, 0, 0, 0, 0, 0, 0, 0, 0, 0, 0,
        26, 0, 0, 0, 0, 0, 0, 0] ++ [9, 9, 9]) =
      some (.ok ([], [] ++ [9, 9, 9])) :=
  C10_trailing_data endDec (fun _ _ _ _ => rfl) 1
    [0x4C, 0x5A, 0x49, 0x50, 0x01, 12, 0, 0, 0, 0, 0, 0, 0, 0, 0, 0, 0, 0, 26,
     0, 0, 0, 0, 0, 0, 0]
    [9, 9, 9] [] [] (by decide)

/-- C2 counterexample: the dictionary size 4097 lies in
[4 KiB, 512 MiB], yet `decode_dict_size (encode_dict_size 4097)` is
4608, not 4097 — the claim's round trip fails on sizes that are not
exactly representable by a header byte (encode rounds them up to the
nearest representable size). -/
theorem C2_dict_roundtrip_cex :
    minDictSize ≤ 4097 ∧ 4097 ≤ maxDictSize ∧
    decodeDictSize (encodeDictSize 4097) = 4608 ∧ (4608 : Nat) ≠ 4097 := by
  decide

set_option maxRecDepth 16384 in
/-- C2 (amended): for every dictionary size in [4 KiB, 512 MiB] that
is exactly representable by a header byte — i.e. every size in the
image of `decode_dict_size` — `decode_dict_size (encode_dict_size d) =
d`; on such sizes encode is the inverse of decode, although
`encode (decode b)` need not reproduce the byte `b` bit-for-bit. -/
theorem C2_dict_roundtrip (b : Nat) (hb : b < 256)
    (h1 : minDictSize ≤ decodeDictSize b) (h2 : decodeDictSize b ≤ maxDictSize) :
    decodeDictSize (encodeDictSize (decodeDictSize b)) = decodeDictSize b := by
  have H : ∀ v : Fin 256, minDictSize ≤ decodeDictSize v.val →
      decodeDictSize v.val ≤ maxDictSize →
      decodeDictSize (encodeDictSize (decodeDictSize v.val)) = decodeDictSize v.val := by
    decide
  exact H ⟨b, hb⟩ h1 h2

/-- Witness for C2 (amended) at the header byte 23 (8 MiB). -/
theorem C2_dict_roundtrip_witness :
    decodeDictSize (encodeDictSize (decodeDictSize 23)) = decodeDictSize 23 :=
  C2_dict_roundtrip 23 (by decide) (by decide) (by decide)

/-- C3: for every header byte, the decoded dictionary size follows the
claimed formula (`decodeDictSizeSpec` is transcribed from the spec
text), and when the decoded size falls outside [4 KiB, 512 MiB] the
header decode fails with `InvalidDictSize`. -/
theorem C3_decode_dict_size (b : Nat) (_hb : b < 256) (rest : List Nat) :
    decodeDictSize b = decodeDictSizeSpec b ∧
    ((decodeDictSize b < minDictSize ∨ maxDictSize < decodeDictSize b) →
      readHeader (0x4C :: 0x5A :: 0x49 :: 0x50 :: 0x01 :: b :: rest) =
        .error .invalidDictSize) := by
  constructor
  · rfl
  · intro h
    unfold readHeader
    rw [if_neg (by simp), if_neg (by simp [lzipMagic]), if_neg (by simp [lzipVersion])]
    simp only [List.getD_cons_succ, List.getD_cons_zero]
    rw [if_pos h]

/-- Witness for C3 at the byte 31 (decoding to 2^31, above the 512 MiB
bound, hence rejected). -/
theorem C3_decode_dict_size_witness :
    decodeDictSize 31 = decodeDictSizeSpec 31 ∧
    readHeader [0x4C, 0x5A, 0x49, 0x50, 0x01, 31] = .error .invalidDictSize :=
  ⟨(C3_decode_dict_size 31 (by decide) []).1,
   (C3_decode_dict_size 31 (by decide) []).2 (by decide)⟩

/-- C6: decoding input whose first 4 bytes are not the lzip magic
fails with `InvalidMagic` (whatever the version byte holds); with
correct magic, a version byte other than 1 fails with
`UnsupportedVersion` (whatever the dictionary byte holds); with both
correct, an out-of-range dictionary size fails with `InvalidDictSize`
— establishing the magic-then-version-then-dictionary check order. -/
theorem C6_header_rejection {σ : Type} (D : Lzma σ) (fuel : Nat) (input : List Nat)
    (hlen : 6 ≤ input.length) :
    (input.take 4 ≠ lzipMagic → decode D fuel input = some (.error .invalidMagic)) ∧
    (input.take 4 = lzipMagic → input.getD 4 0 ≠ lzipVersion →
      decode D fuel input = some (.error .unsupportedVersion)) ∧
    (input.take 4 = lzipMagic → input.getD 4 0 = lzipVersion →
      (decodeDictSize (input.getD 5 0) < minDictSize ∨
        maxDictSize < decodeDictSize (input.getD 5 0)) →
      decode D fuel input = some (.error .invalidDictSize)) := by
  refine ⟨?_, ?_, ?_⟩
  · intro h1
    have hh : readHeader input = .error .invalidMagic := by
      unfold readHeader
      rw [if_neg (by omega), if_pos h1]
    simp [decode, hh]
  · intro h1 h2
    have hh : readHeader input = .error .unsupportedVersion := by
      unfold readHeader
      rw [if_neg (by omega), if_neg (not_not_intro h1), if_pos h2]
    simp [decode, hh]
  · intro h1 h2 h3
    have hh : readHeader input = .error .invalidDictSize := by
      unfold readHeader
      rw [if_neg (by omega), if_neg (not_not_intro h1), if_neg (not_not_intro h2),
        if_pos h3]
    simp [decode, hh]

/-- Witness for C6 on three concrete six-byte inputs. -/
theorem C6_header_rejection_witness :
    decode stallDec 0 [0, 0, 0, 0, 0x01, 12] = some (.error .invalidMagic) ∧
    decode stallDec 0 [0x4C, 0x5A, 0x49, 0x50, 0x02, 12] =
      some (.error .unsupportedVersion) ∧
    decode stallDec 0 [0x4C, 0x5A, 0x49, 0x50, 0x01, 0] =
      some (.error .invalidDictSize) :=
  ⟨(C6_header_rejection stallDec 0 _ (by decide)).1 (by decide),
   (C6_header_rejection stallDec 0 _ (by decide)).2.1 (by decide) (by decide),
   (C6_header_rejection stallDec 0 _ (by decide)).2.2 rfl rfl (by decide)⟩

/-- C7: when the compressed input is exhausted, a decompressor call
produces no output, and stream end has not been signaled, the
decompression loop fails with `UnexpectedEndOfStream`; in particular a
valid header followed by no compressed data at all fails this way. -/
theorem C7_unexpected_eof {σ : Type} (D : Lzma σ) (fuel : Nat) :
    (∀ s crc tin tout acc, (D.process s [] Action.finish).out = [] →
      (D.process s [] Action.finish).status ≠ Status.streamEnd →
      decompressLoop D (fuel + 1) s [] crc tin tout acc =
        some (.error .unexpectedEndOfStream)) ∧
    (∀ dsb, minDictSize ≤ decodeDictSize dsb → decodeDictSize dsb ≤ maxDictSize →
      (D.process D.init [] Action.finish).out = [] →
      (D.process D.init [] Action.finish).status ≠ Status.streamEnd →
      decode D (fuel + 1) [0x4C, 0x5A, 0x49, 0x50, 0x01, dsb] =
        some (.error .unexpectedEndOfStream)) := by
  have hloop : ∀ s crc tin tout acc, (D.process s [] Action.finish).out = [] →
      (D.process s [] Action.finish).status ≠ Status.streamEnd →
      decompressLoop D (fuel + 1) s [] crc tin tout acc =
        some (.error .unexpectedEndOfStream) := by
    intro s crc tin tout acc hout hst
    simp only [decompressLoop, List.isEmpty_nil, if_true, true_and]
    rw [if_neg hst, if_pos (by rw [hout]; rfl)]
  refine ⟨hloop, ?_⟩
  intro dsb hlo hhi hout hst
  have hh := readHeader_bytes dsb [] hlo hhi
  simp only [decode, hh, hloop D.init crcInit 0 0 [] hout hst]

/-- Witness for C7: the stalling decoder engine on a header-only
input. -/
theorem C7_unexpected_eof_witness :
    decompressLoop stallDec 1 () [] 0 0 0 [] = some (.error .unexpectedEndOfStream) ∧
    decode stallDec 1 [0x4C, 0x5A, 0x49, 0x50, 0x01, 12] =
      some (.error .unexpectedEndOfStream) :=
  ⟨(C7_unexpected_eof stallDec 0).1 () 0 0 0 [] rfl (by decide),
   (C7_unexpected_eof stallDec 0).2 12 (by decide) (by decide) rfl (by decide)⟩

/-- C8: the encoder is constructed from a compression-level option
(with `Encoder::new` defaulting to `Default`, whose dictionary size is
8 MiB); construction only stores the level beside zeroed session
counters — it writes nothing to any output — and every constructible
dictionary size lies in [4 KiB, 512 MiB], so the `InvalidDictSize`
bound can never be violated at construction time. -/
theorem C8_encoder_construction :
    Encoder.new = Encoder.newWithLevel CompressionLevel.default ∧
    dictSize CompressionLevel.default = 8 * 1024 * 1024 ∧
    ∀ level : CompressionLevel,
      Encoder.newWithLevel level =
        { compressionLevel := level, crc32 := 0, uncompressedSize := 0,
          compressedSize := 0 } ∧
      minDictSize ≤ dictSize level ∧ dictSize level ≤ maxDictSize := by
  refine ⟨rfl, by decide, fun level => ⟨rfl, ?_, ?_⟩⟩ <;> cases level <;> decide

/-- C4: after stream end the decoder reads the 20-byte trailer and
checks, in order: the stored crc32 against the running CRC32 over the
decompressed output (`InvalidCrc`), the stored uncompressed size
against the total bytes produced (`InvalidDataSize`), and the stored
member size against `6 + compressed bytes consumed + 20`
(`InvalidMemberSize`); decoding succeeds exactly when all three match.
The first two conjuncts identify the session values with the claimed
observables. -/
theorem C4_trailer_validation {σ : Type} (D : Lzma σ) (fuel : Nat)
    (input : List Nat) (ds : Nat) (rest : List Nat)
    (tin tout : Nat) (out : List Nat) (crcv : Nat) (leftover : List Nat)
    (hHdr : readHeader input = .ok (ds, rest))
    (hLoop : decompressLoop D fuel D.init rest crcInit 0 0 [] =
      some (.ok (tin, tout, out, crcv, leftover)))
    (hLen : 20 ≤ leftover.length) :
    crcv = crc32 out ∧ tout = out.length ∧
    decode D fuel input = some (
      if leVal ((leftover.take 20).take 4) ≠ crc32 out then .error .invalidCrc
      else if leVal (((leftover.take 20).drop 4).take 8) ≠ out.length then
        .error .invalidDataSize
      else if leVal ((leftover.take 20).drop 12) ≠ 6 + tin + 20 then
        .error .invalidMemberSize
      else .ok (out, leftover.drop 20)) := by
  obtain ⟨p, k, G1, G2, G3, G4, G5, G6⟩ :=
    decompressLoop_sound D _ _ _ _ _ _ _ _ _ _ _ _ hLoop
  simp only [List.nil_append] at G1
  have hcrcv : crcv = crc32 out := by
    rw [G3, ← G1]
    rfl
  have htout : tout = out.length := by
    rw [G1]
    omega
  refine ⟨hcrcv, htout, ?_⟩
  simp only [decode, hHdr, hLoop]
  rw [hcrcv, htout]
  simp only [readTrailer]
  rw [if_neg (by omega)]
  by_cases hA : leVal ((leftover.take 20).take 4) ≠ crc32 out
  · rw [if_pos hA, if_pos hA]
  · rw [if_neg hA, if_neg hA]
    by_cases hB : leVal (((leftover.take 20).drop 4).take 8) ≠ out.length
    · rw [if_pos hB, if_pos hB]
    · rw [if_neg hB, if_neg hB]
      by_cases hC : leVal ((leftover.take 20).drop 12) ≠ 6 + tin + 20
      · rw [if_pos hC, if_pos hC]
      · rw [if_neg hC, if_neg hC]

/-- Witness for C4: a member whose stored crc32 field holds 1 instead
of the correct 0 is rejected with `InvalidCrc`. -/
theorem C4_trailer_validation_witness :
    decode endDec 1
      [0x4C, 0x5A, 0x49, 0x50, 0x01, 12, 1, 0, 0, 0, 0, 0, 0, 0, 0, 0, 0, 0,
       26, 0, 0, 0, 0, 0, 0, 0] = some (.error .invalidCrc) :=
  ((C4_trailer_validation endDec 1
      [0x4C, 0x5A, 0x49, 0x50, 0x01, 12, 1, 0, 0, 0, 0, 0, 0, 0, 0, 0, 0, 0,
       26, 0, 0, 0, 0, 0, 0, 0]
      4096
      [1, 0, 0, 0, 0, 0, 0, 0, 0, 0, 0, 0, 26, 0, 0, 0, 0, 0, 0, 0]
      0 0 [] 0
      [1, 0, 0, 0, 0, 0, 0, 0, 0, 0, 0, 0, 26, 0, 0, 0, 0, 0, 0, 0]
      (by decide) (by decide) (by decide)).2.2).trans (by decide)

/-- C5: the trailer the encoder writes is, in order and little-endian,
the CRC32 over exactly the consumed input (4 bytes), the count of
consumed input bytes (8 bytes), and `6 + compressed_size + 20`
(8 bytes), where `compressed_size` counts exactly the payload bytes
emitted; whenever that quantity fits in a `u64` the stored member size
equals the byte length of the whole produced member. -/
theorem C5_trailer_contents {σ : Type} (M : Lzma σ) (fuel : Nat)
    (level : CompressionLevel) (b : List Nat)
    (tin tout : Nat) (payload : List Nat) (crcv : Nat)
    (hLoop : compressLoop M fuel M.init b crcInit 0 0 [] =
      some (tin, tout, payload, crcv)) :
    encode M fuel level b =
      some (writeHeader level ++ payload ++ writeTrailer crcv tin tout) ∧
    crcv = crc32 b ∧ tin = b.length ∧ tout = payload.length ∧
    writeTrailer crcv tin tout =
      leBytes 4 (crc32 b) ++ leBytes 8 b.length ++
        leBytes 8 (6 + payload.length + 20) ∧
    (6 + payload.length + 20 < 2 ^ 64 →
      leVal (List.drop 12 (writeTrailer crcv tin tout)) =
        (writeHeader level ++ payload ++ writeTrailer crcv tin tout).length) := by
  obtain ⟨H1, H2, p, H3, H4⟩ := compressLoop_sound M _ _ _ _ _ _ _ _ _ _ _ hLoop
  simp only [List.nil_append] at H3
  have htin : tin = b.length := by omega
  have hcrcv : crcv = crc32 b := H2
  have htout : tout = payload.length := by
    rw [H3]
    omega
  have hwt : writeTrailer crcv tin tout =
      leBytes 4 (crc32 b) ++ leBytes 8 b.length ++
        leBytes 8 (6 + payload.length + 20) := by
    rw [hcrcv, htin, htout]
    rfl
  refine ⟨by simp only [encode, hLoop], hcrcv, htin, htout, hwt, ?_⟩
  intro hlt
  have hd12 : List.drop 12 (writeTrailer crcv tin tout) =
      leBytes 8 (6 + payload.length + 20) := by
    rw [hwt, show (12 : Nat) = 4 + 8 from rfl, ← List.drop_drop, List.append_assoc]
    rw [List.drop_left' (leBytes_length 4 (crc32 b))]
    exact List.drop_left' (leBytes_length 8 b.length)
  have hwh : (writeHeader level).length = 6 := by simp [writeHeader, lzipMagic]
  have hwtl : (writeTrailer crcv tin tout).length = 20 := by
    simp [writeTrailer, leBytes_length]
  rw [hd12, leVal_leBytes, show (256 : Nat) ^ 8 = 2 ^ 64 from by norm_num,
    Nat.mod_eq_of_lt hlt, List.length_append, List.length_append, hwh, hwtl]

/-- Witness for C5 with the store engine on the two-byte input
`[5, 6]`. -/
theorem C5_trailer_contents_witness :
    encode storeEnc 2 CompressionLevel.fast [5, 6] =
      some (writeHeader CompressionLevel.fast ++ [5, 6] ++
        writeTrailer (crc32 [5, 6]) 2 2) ∧
    leVal (List.drop 12 (writeTrailer (crc32 [5, 6]) 2 2)) =
      (writeHeader CompressionLevel.fast ++ [5, 6] ++
        writeTrailer (crc32 [5, 6]) 2 2).length :=
  ⟨(C5_trailer_contents storeEnc 2 CompressionLevel.fast [5, 6] 2 2 [5, 6]
      (crc32 [5, 6]) (by decide)).1,
   (C5_trailer_contents storeEnc 2 CompressionLevel.fast [5, 6] 2 2 [5, 6]
      (crc32 [5, 6]) (by decide)).2.2.2.2.2 (by decide)⟩

/-- C9 counterexample: the ASCII literal "the quick brown fox jumps
over the lazy dog" is 43 bytes, not 44 as the claim states. -/
theorem C9_literal_length_cex : foxBytes.length = 43 ∧ foxBytes.length ≠ 44 := by
  decide

/-- C9 (amended): every produced member begins with the bytes
`4C 5A 49 50 01`, its 6th byte decodes through the dictionary-size
codec to the dictionary size of the chosen level (Fastest 256 KiB,
Fast 4 MiB, Default 8 MiB, Maximum 64 MiB); and encoding the 43 ASCII
bytes of "the quick brown fox jumps over the lazy dog" and decoding
the result returns exactly those 43 bytes (decoder-engine correctness
on the member body entering as hypotheses, as in the round-trip
claim). -/
theorem C9_literal_example {σE σD : Type} (E : Lzma σE) (D : Lzma σD)
    (fuelE fuelD : Nat) (level : CompressionLevel) (b member : List Nat)
    (hEnc : encode E fuelE level b = some member) :
    member.take 5 = [0x4C, 0x5A, 0x49, 0x50, 0x01] ∧
    decodeDictSize (member.getD 5 0) = dictSize level ∧
    dictSize CompressionLevel.fastest = 256 * 1024 ∧
    dictSize CompressionLevel.fast = 4 * 1024 * 1024 ∧
    dictSize CompressionLevel.default = 8 * 1024 * 1024 ∧
    dictSize CompressionLevel.maximum = 64 * 1024 * 1024 ∧
    foxBytes.length = 43 ∧
    (∀ tin tout out crcv leftover,
      b = foxBytes →
      decompressLoop D fuelD D.init (member.drop 6) crcInit 0 0 [] =
        some (.ok (tin, tout, out, crcv, leftover)) →
      out = b → tin + 26 = member.length → member.length < 2 ^ 64 →
      decode D fuelD member = some (.ok (foxBytes, []))) := by
  have hEnc0 := hEnc
  unfold encode at hEnc
  cases hres : compressLoop E fuelE E.init b crcInit 0 0 [] with
  | none =>
    rw [hres] at hEnc
    exact absurd hEnc (by simp)
  | some q =>
    obtain ⟨tinE, toutE, payload, crcE⟩ := q
    rw [hres] at hEnc
    simp only [Option.some.injEq] at hEnc
    have hmem : member = 0x4C :: 0x5A :: 0x49 :: 0x50 :: 0x01 ::
        encodeDictSize (dictSize level) ::
          (payload ++ writeTrailer crcE tinE toutE) := by
      rw [← hEnc]
      simp [writeHeader, lzipMagic, lzipVersion]
    obtain ⟨hrt, _, _⟩ := dictSize_level_roundtrip level
    refine ⟨by rw [hmem]; rfl, ?_, by decide, by decide, by decide, by decide,
      by decide, ?_⟩
    · rw [hmem]
      simp only [List.getD_cons_succ, List.getD_cons_zero]
      exact hrt
    · intro tin tout out crcv leftover hfox hLoop hOut hTin hm
      subst hfox
      exact decode_encode_aux E D fuelE fuelD level foxBytes member tin tout out crcv
        leftover hEnc0 hLoop hOut hTin (by decide) hm

set_option maxRecDepth 100000 in
/-- Witness for C9: the store engine encodes the fox literal at the
default level; the 43-byte pass-through decoder engine decodes the
member back to the literal. -/
theorem C9_literal_example_witness :
    decode (passDec 43) 1
      (writeHeader CompressionLevel.default ++ foxBytes ++
        writeTrailer (crc32 foxBytes) 43 43) = some (.ok (foxBytes, [])) :=
  (C9_literal_example storeEnc (passDec 43) 2 1 CompressionLevel.default foxBytes
      (writeHeader CompressionLevel.default ++ foxBytes ++
        writeTrailer (crc32 foxBytes) 43 43)
      (by decide)).2.2.2.2.2.2.2 43 43 foxBytes (crc32 foxBytes)
      (writeTrailer (crc32 foxBytes) 43 43) rfl (by decide) rfl (by decide)
      (by decide)

end Lzipper
